import Mathlib

/-!
# The build-artifact manifest: `cuttlefish/host/libs/config/fetcher_config.cpp`

A shallow embedding of `FetcherConfig`, the JSON-backed record of which file came
from which build, and the properties of its operations.

Modelling decisions.

* `std::string` is `String`; prefix, suffix and ordering tests work on its
  character list (`String.data`).
* A jsoncpp object and a `std::map<std::string, T>` are both `OrderedMap T`: the
  list of (key, value) pairs in iteration order.  `operator[]` followed by an
  assignment is `OrderedMap.assign`: it overwrites the value of a key that is
  present and otherwise inserts the pair in front of the first greater key.
* `dictionary_` is held at the shape this file reads and writes: the member
  `cvd_files`, absent or an object from path to entry, an entry being an object
  whose members are held as the text `asString()` reads from them.  A member that is
  JSON `null` reads like an absent or empty one in every call the file makes and is
  not distinguished.  Other members of the dictionary (`flags`) are not touched by
  the operations embedded here.
* Logging has no effect on the state and is left out.
-/

namespace cuttlefish

/-! ## Strings -/

/-- Byte-wise comparison of two keys, the order in which a `std::map` keyed by
strings (and so a jsoncpp object) iterates: the first differing character decides,
and a proper prefix comes first. -/
def keyLess : List Char → List Char → Bool
  | [], [] => false
  | [], _ :: _ => true
  | _ :: _, [] => false
  | a :: as, b :: bs =>
    if a.toNat < b.toNat then true
    else if b.toNat < a.toNat then false
    else keyLess as bs

/-- Lower-casing of one character as `std::tolower` does it in the "C" locale:
`A`..`Z` are mapped to `a`..`z`, every other character is returned as it is. -/
def tolower (c : Char) : Char :=
  if 65 ≤ c.toNat ∧ c.toNat ≤ 90 then Char.ofNat (c.toNat + 32) else c

/-- From android-base: `StartsWith(s, prefix)`. -/
def StartsWith (s pre : String) : Bool :=
  pre.data.isPrefixOf s.data

/-- From android-base: `EndsWith(s, suffix)`. -/
def EndsWith (s suffix : String) : Bool :=
  suffix.data.isSuffixOf s.data

/-- From android-base: `ConsumePrefix(&s, prefix)`, which removes `prefix` from the
front of `s` when `s` starts with it and reports whether it did; the pair is the
returned flag and the string view afterwards. -/
def ConsumePrefix (s pre : String) : Bool × String :=
  if StartsWith s pre then (true, ⟨s.data.drop pre.data.length⟩) else (false, s)

/-- The loop `while (StartsWith(local_path, "/")) ConsumePrefix(&local_path, "/")`
on the characters of `local_path`: each round removes one leading `/`. -/
def consumeSlashes : List Char → List Char
  | [] => []
  | c :: rest => if c = '/' then consumeSlashes rest else c :: rest

/-! ## Ordered maps -/

/-- A map keyed by strings, as the list of its pairs in iteration order. -/
abbrev OrderedMap (α : Type) := List (String × α)

namespace OrderedMap

/-- Whether `key` is a key of the map (`Json::Value::isMember`, `std::map::count`). -/
def isMember {α : Type} (m : OrderedMap α) (key : String) : Bool :=
  (m.lookup key).isSome

/-- The keys of the map in iteration order (`Json::Value::getMemberNames`). -/
def getMemberNames {α : Type} (m : OrderedMap α) : List String :=
  m.map Prod.fst

/-- Overwrite the value stored under a key that is present. -/
def replaceValue {α : Type} (key : String) (v : α) : OrderedMap α → OrderedMap α
  | [] => []
  | (k, x) :: rest =>
    if k = key then (k, v) :: rest else (k, x) :: replaceValue key v rest

/-- Insert a pair in front of the first greater key. -/
def insertOrdered {α : Type} (key : String) (v : α) : OrderedMap α → OrderedMap α
  | [] => [(key, v)]
  | (k, x) :: rest =>
    if keyLess key.data k.data then (key, v) :: (k, x) :: rest
    else (k, x) :: insertOrdered key v rest

/-- The statement `m[key] = v`: the value of a present key is overwritten, an absent
key is inserted at its place in the order. -/
def assign {α : Type} (m : OrderedMap α) (key : String) (v : α) : OrderedMap α :=
  if isMember m key then replaceValue key v m else insertOrdered key v m

/-- Remove the pair stored under `key` (`Json::Value::removeMember`). -/
def removeMember {α : Type} (m : OrderedMap α) (key : String) : OrderedMap α :=
  m.filter (fun e => e.1 ≠ key)

end OrderedMap

open OrderedMap

/-! ## FileSource and CvdFile -/

/-- Modelled from the spec: the enumeration `FileSource` is declared in
`fetcher_config.h`, which is not among the sources; its values are the eleven
enumerators that `fetcher_config.cpp` names. -/
inductive FileSource where
  | UNKNOWN_PURPOSE
  | DEFAULT_BUILD
  | SYSTEM_BUILD
  | KERNEL_BUILD
  | LOCAL_FILE
  | GENERATED
  | BOOTLOADER_BUILD
  | ANDROID_EFI_LOADER_BUILD
  | BOOT_BUILD
  | HOST_PACKAGE_BUILD
  | CHROME_OS_BUILD
  deriving DecidableEq, Repr

/-- Modelled from the spec: the record `CvdFile` is declared in `fetcher_config.h`,
which is not among the sources; its four fields are those its constructor
initialises (lines 108-111). -/
structure CvdFile where
  source : FileSource
  build_id : String
  build_target : String
  file_path : String
  deriving DecidableEq, Repr

def kCvdFileSource : String := "source"
def kCvdFileBuildId : String := "build_id"
def kCvdFileBuildTarget : String := "build_target"

/-- Lines 48-75. -/
def SourceStringToEnum (source : String) : FileSource :=
  let source : String := ⟨source.data.map tolower⟩
  if source = "default_build" then FileSource.DEFAULT_BUILD
  else if source = "system_build" then FileSource.SYSTEM_BUILD
  else if source = "kernel_build" then FileSource.KERNEL_BUILD
  else if source = "local_file" then FileSource.LOCAL_FILE
  else if source = "generated" then FileSource.GENERATED
  else if source = "bootloader_build" then FileSource.BOOTLOADER_BUILD
  else if source = "android_efi_loader_build" then FileSource.ANDROID_EFI_LOADER_BUILD
  else if source = "boot_build" then FileSource.BOOT_BUILD
  else if source = "host_package_build" then FileSource.HOST_PACKAGE_BUILD
  else if source = "chrome_os_build" then FileSource.CHROME_OS_BUILD
  else FileSource.UNKNOWN_PURPOSE

/-- Lines 77-101. -/
def SourceEnumToString (source : FileSource) : String :=
  if source = FileSource.DEFAULT_BUILD then "default_build"
  else if source = FileSource.SYSTEM_BUILD then "system_build"
  else if source = FileSource.KERNEL_BUILD then "kernel_build"
  else if source = FileSource.LOCAL_FILE then "local_file"
  else if source = FileSource.GENERATED then "generated"
  else if source = FileSource.BOOTLOADER_BUILD then "bootloader_build"
  else if source = FileSource.ANDROID_EFI_LOADER_BUILD then "android_efi_loader_build"
  else if source = FileSource.BOOT_BUILD then "boot_build"
  else if source = FileSource.HOST_PACKAGE_BUILD then "host_package_build"
  else if source = FileSource.CHROME_OS_BUILD then "chrome_os_build"
  else "unknown"

/-- The lower-casing the specification speaks of: every ASCII capital letter of
`s` is replaced by its small letter. -/
def asciiLowercase (s : String) : String :=
  ⟨s.data.map Char.toLower⟩

/-- The ten names that `SourceStringToEnum` recognises (lines 52-71). -/
def recognisedSourceNames : List String :=
  ["default_build", "system_build", "kernel_build", "local_file", "generated",
    "bootloader_build", "android_efi_loader_build", "boot_build", "host_package_build",
    "chrome_os_build"]

/-! ## The manifest -/

/-- The JSON object stored for one tracked file: member name to the text
`asString()` reads from the member. -/
abbrev JsonFile := OrderedMap String

/-- The dictionary of a `FetcherConfig`: its member `cvd_files`, `none` when the
dictionary has no such member. -/
structure FetcherConfig where
  cvd_files : Option (OrderedMap JsonFile)
  deriving DecidableEq, Repr

/-- The manifest of a freshly constructed `FetcherConfig` (line 122). -/
def FetcherConfig.empty : FetcherConfig := { cvd_files := none }

/-- The value `json[key].asString()` of a member, the empty text when the member is
absent. -/
def asStringAt (json : JsonFile) (key : String) : String :=
  (json.lookup key).getD ""

/-- Lines 188-203. -/
def JsonToCvdFile (file_path : String) (json : JsonFile) : CvdFile :=
  { file_path := file_path
    source :=
      if isMember json kCvdFileSource then SourceStringToEnum (asStringAt json kCvdFileSource)
      else FileSource.UNKNOWN_PURPOSE
    build_id := if isMember json kCvdFileBuildId then asStringAt json kCvdFileBuildId else ""
    build_target :=
      if isMember json kCvdFileBuildTarget then asStringAt json kCvdFileBuildTarget else "" }

/-- Lines 205-211. -/
def CvdFileToJson (cvd_file : CvdFile) : JsonFile :=
  let json : JsonFile := []
  let json := assign json kCvdFileSource (SourceEnumToString cvd_file.source)
  let json := assign json kCvdFileBuildId cvd_file.build_id
  let json := assign json kCvdFileBuildTarget cvd_file.build_target
  json

/-- Lines 215-225: the returned flag and the manifest afterwards. -/
def add_cvd_file (c : FetcherConfig) (file : CvdFile) (override_entry : Bool) :
    Bool × FetcherConfig :=
  let files : OrderedMap JsonFile :=
    match c.cvd_files with
    | none => []
    | some files_json => files_json
  if isMember files file.file_path && !override_entry then
    (false, { cvd_files := some files })
  else
    (true, { cvd_files := some (assign files file.file_path (CvdFileToJson file)) })

/-- Line 234: one round of the loop of `get_cvd_files`, `it` being the member the
iterator stands on. -/
def readEntry (files : OrderedMap CvdFile) (it : String × JsonFile) : OrderedMap CvdFile :=
  assign files it.1 (JsonToCvdFile it.1 it.2)

/-- Lines 227-237. -/
def get_cvd_files (c : FetcherConfig) : OrderedMap CvdFile :=
  match c.cvd_files with
  | none => []
  | some json_files => json_files.foldl readEntry []

/-- Lines 239-252. -/
def FindCvdFileWithSuffix (c : FetcherConfig) (suffix : String) : String :=
  match c.cvd_files with
  | none => ""
  | some json_files =>
    match json_files.find? (fun it => EndsWith it.1 suffix) with
    | some it => it.1
    | none => ""

/-- Lines 259-266: the key under which `AddFilesToConfig` records `path`. -/
def localPath (path directory_prefix : String) : String :=
  ⟨consumeSlashes (ConsumePrefix path directory_prefix).2.data⟩

/-- The key the specification describes for a path that starts with the directory
prefix: the prefix is removed from the front, then every leading `/`. -/
def strippedKey (path directory_prefix : String) : String :=
  ⟨(path.data.drop directory_prefix.data.length).dropWhile (fun ch => ch == '/')⟩

/-- Modelled from the spec: the macro `CF_EXPECT` and the type `Result` are declared
in `result.h`, which is not among the sources.  `CF_EXPECT(ok, message)` is taken to
return an error carrying the message from the enclosing function when `ok` is false,
and to go on otherwise.  The error of line 269 is held as the three values its
message prints: the rejected file, `get_cvd_files()[path]` and the path.  For
`existing`, `none` stands for the default-constructed `CvdFile` that `operator[]`
of `std::map` yields for a key the map does not hold. -/
structure DuplicateFile where
  file : CvdFile
  existing : Option CvdFile
  path : String
  deriving DecidableEq, Repr

deriving instance DecidableEq for Except

/-- Lines 254-275: the result and the manifest afterwards. -/
def AddFilesToConfig (c : FetcherConfig) (purpose : FileSource) (build_id build_target : String)
    (paths : List String) ( directory_prefix : String) (override_entry : Bool) :
    Except DuplicateFile Unit × FetcherConfig :=
  match paths with
  | [] => (Except.ok (), c)
  | path :: rest =>
    let file : CvdFile :=
      { source := purpose, build_id := build_id, build_target := build_target,
        file_path := localPath path directory_prefix }
    match add_cvd_file c file override_entry with
    | (false, c1) =>
      (Except.error { file := file, existing := (get_cvd_files c1).lookup path, path := path },
        c1)
    | (true, c1) =>
      AddFilesToConfig c1 purpose build_id build_target rest directory_prefix override_entry

/-- Lines 158-160: one round of the loop of `LoadFromFile`.  The entry read under
`member_name` is copied under the prefixed key, then `member_name` is removed. -/
def adjustPath (base_dir : String) (files : OrderedMap JsonFile) (member_name : String) :
    OrderedMap JsonFile :=
  removeMember
    (assign files (base_dir ++ "/" ++ member_name) ((files.lookup member_name).getD []))
    member_name

/-- Lines 154-162: what `LoadFromFile` does to the parsed dictionary, `base_dir`
being the directory of the file read. -/
def LoadFromFile (parsed : FetcherConfig) (base_dir : String) : FetcherConfig :=
  match parsed.cvd_files with
  | none => parsed
  | some files =>
    if base_dir ≠ "." then
      { cvd_files := some ((getMemberNames files).foldl (adjustPath base_dir) files) }
    else parsed

/-- The manifests that a sequence of `add_cvd_file` and `AddFilesToConfig` calls
reaches from the manifest of a freshly constructed `FetcherConfig`. -/
inductive Reachable : FetcherConfig → Prop
  | fresh : Reachable FetcherConfig.empty
  | add (c : FetcherConfig) (file : CvdFile) (override_entry : Bool) :
      Reachable c → Reachable (add_cvd_file c file override_entry).2
  | addFiles (c : FetcherConfig) (purpose : FileSource) (build_id build_target : String)
      (paths : List String) ( directory_prefix : String) (override_entry : Bool) :
      Reachable c →
        Reachable (AddFilesToConfig c purpose build_id build_target paths directory_prefix
          override_entry).2

/-- The paths the manifest tracks: the keys of its member `cvd_files`. -/
def trackedPaths (c : FetcherConfig) : List String :=
  match c.cvd_files with
  | none => []
  | some files => getMemberNames files

/-- The key invariant of the manifest format: no path is a key twice. -/
def UniqueKeys (c : FetcherConfig) : Prop :=
  (trackedPaths c).Nodup

instance (c : FetcherConfig) : Decidable (UniqueKeys c) := by
  unfold UniqueKeys; infer_instance


/-! ## Ordered maps: keys and lookups -/

theorem isMember_iff_mem {α : Type} (m : OrderedMap α) (key : String) :
    isMember m key = true ↔ key ∈ getMemberNames m := by
  induction m with
  | nil => simp [isMember, getMemberNames]
  | cons e rest ih =>
    obtain ⟨k, x⟩ := e
    simp only [isMember, getMemberNames, List.lookup_cons, List.map_cons, List.mem_cons] at ih ⊢
    by_cases h : key = k
    · subst h; simp
    · have hb : (key == k) = false := by simpa using h
      simp [hb, h, ih]

theorem lookup_eq_none_of_not_mem {α : Type} (m : OrderedMap α) (key : String)
    (h : key ∉ getMemberNames m) : m.lookup key = none := by
  have := isMember_iff_mem m key
  simp only [isMember] at this
  cases hl : m.lookup key with
  | none => rfl
  | some v => rw [hl] at this; exact absurd (this.1 rfl) h

theorem getMemberNames_replaceValue {α : Type} (key : String) (v : α) (m : OrderedMap α) :
    getMemberNames (replaceValue key v m) = getMemberNames m := by
  induction m with
  | nil => rfl
  | cons e rest ih =>
    obtain ⟨k, x⟩ := e
    simp only [replaceValue]
    split
    · rfl
    · simp only [getMemberNames, List.map_cons] at ih ⊢
      rw [ih]

theorem getMemberNames_insertOrdered_perm {α : Type} (key : String) (v : α) (m : OrderedMap α) :
    (getMemberNames (insertOrdered key v m)).Perm (key :: getMemberNames m) := by
  induction m with
  | nil => simp [insertOrdered, getMemberNames]
  | cons e rest ih =>
    obtain ⟨k, x⟩ := e
    simp only [insertOrdered]
    split
    · simp [getMemberNames]
    · simp only [getMemberNames, List.map_cons] at ih ⊢
      exact (List.Perm.cons k ih).trans (List.Perm.swap key k _)

theorem mem_getMemberNames_assign {α : Type} (m : OrderedMap α) (key : String) (v : α)
    (k : String) : k ∈ getMemberNames (assign m key v) ↔ k = key ∨ k ∈ getMemberNames m := by
  unfold assign
  split
  · rename_i h
    rw [getMemberNames_replaceValue]
    constructor
    · exact Or.inr
    · rintro (rfl | h')
      · exact (isMember_iff_mem m k).1 h
      · exact h'
  · rw [(getMemberNames_insertOrdered_perm key v m).mem_iff]
    simp

theorem nodup_getMemberNames_assign {α : Type} (m : OrderedMap α) (key : String) (v : α)
    (h : (getMemberNames m).Nodup) : (getMemberNames (assign m key v)).Nodup := by
  unfold assign
  split
  · rw [getMemberNames_replaceValue]; exact h
  · rename_i hm
    rw [(getMemberNames_insertOrdered_perm key v m).nodup_iff, List.nodup_cons]
    exact ⟨fun hk => hm ((isMember_iff_mem m key).2 hk), h⟩

theorem lookup_replaceValue_self {α : Type} (key : String) (v : α) (m : OrderedMap α)
    (h : key ∈ getMemberNames m) : (replaceValue key v m).lookup key = some v := by
  induction m with
  | nil => simp [getMemberNames] at h
  | cons e rest ih =>
    obtain ⟨k, x⟩ := e
    simp only [replaceValue]
    by_cases hk : k = key
    · subst hk; simp
    · have hb : (key == k) = false := by simpa using fun h' => hk h'.symm
      simp only [getMemberNames, List.map_cons, List.mem_cons] at h ih
      rw [if_neg hk, List.lookup_cons, hb]
      exact ih (h.resolve_left fun h' => hk h'.symm)

theorem lookup_replaceValue_ne {α : Type} (key : String) (v : α) (m : OrderedMap α)
    (k : String) (h : k ≠ key) : (replaceValue key v m).lookup k = m.lookup k := by
  induction m with
  | nil => rfl
  | cons e rest ih =>
    obtain ⟨k', x⟩ := e
    simp only [replaceValue]
    by_cases hk : k' = key
    · subst hk
      have hb : (k == k') = false := by simpa using h
      simp [List.lookup_cons, hb]
    · rw [if_neg hk, List.lookup_cons, List.lookup_cons, ih]

theorem lookup_insertOrdered_self {α : Type} (key : String) (v : α) (m : OrderedMap α)
    (h : key ∉ getMemberNames m) : (insertOrdered key v m).lookup key = some v := by
  induction m with
  | nil => simp [insertOrdered]
  | cons e rest ih =>
    obtain ⟨k, x⟩ := e
    simp only [getMemberNames, List.map_cons, List.mem_cons, not_or] at h ih
    simp only [insertOrdered]
    split
    · simp
    · have hb : (key == k) = false := by simpa using h.1
      rw [List.lookup_cons, hb]
      exact ih h.2

theorem lookup_insertOrdered_ne {α : Type} (key : String) (v : α) (m : OrderedMap α)
    (k : String) (h : k ≠ key) : (insertOrdered key v m).lookup k = m.lookup k := by
  induction m with
  | nil =>
    have hb : (k == key) = false := by simpa using h
    simp [insertOrdered, List.lookup_cons, hb]
  | cons e rest ih =>
    obtain ⟨k', x⟩ := e
    simp only [insertOrdered]
    split
    · have hb : (k == key) = false := by simpa using h
      rw [List.lookup_cons, hb]
    · rw [List.lookup_cons, List.lookup_cons, ih]

theorem lookup_assign_self {α : Type} (m : OrderedMap α) (key : String) (v : α) :
    (assign m key v).lookup key = some v := by
  unfold assign
  split
  · rename_i h
    exact lookup_replaceValue_self key v m ((isMember_iff_mem m key).1 h)
  · rename_i h
    exact lookup_insertOrdered_self key v m fun hk => h ((isMember_iff_mem m key).2 hk)

theorem lookup_assign_ne {α : Type} (m : OrderedMap α) (key : String) (v : α) (k : String)
    (h : k ≠ key) : (assign m key v).lookup k = m.lookup k := by
  unfold assign
  split
  · exact lookup_replaceValue_ne key v m k h
  · exact lookup_insertOrdered_ne key v m k h

theorem lookup_reverse_replaceValue_ne {α : Type} (key : String) (v : α) (m : OrderedMap α)
    (k : String) (h : k ≠ key) :
    (replaceValue key v m).reverse.lookup k = m.reverse.lookup k := by
  induction m with
  | nil => rfl
  | cons e rest ih =>
    obtain ⟨k', x⟩ := e
    simp only [replaceValue]
    by_cases hk : k' = key
    · subst hk
      have hb : (k == k') = false := by simpa using h
      simp [List.lookup_append, List.lookup_cons, hb]
    · rw [if_neg hk, List.reverse_cons, List.reverse_cons, List.lookup_append,
        List.lookup_append, ih]

theorem lookup_reverse_insertOrdered_ne {α : Type} (key : String) (v : α) (m : OrderedMap α)
    (k : String) (h : k ≠ key) :
    (insertOrdered key v m).reverse.lookup k = m.reverse.lookup k := by
  have hb : (k == key) = false := by simpa using h
  induction m with
  | nil => simp [insertOrdered, List.lookup_cons, hb]
  | cons e rest ih =>
    obtain ⟨k', x⟩ := e
    simp only [insertOrdered]
    split
    · simp [List.lookup_append, List.lookup_cons, hb]
    · rw [List.reverse_cons, List.reverse_cons, List.lookup_append, List.lookup_append, ih]

theorem lookup_reverse_assign_ne {α : Type} (m : OrderedMap α) (key : String) (v : α)
    (k : String) (h : k ≠ key) : (assign m key v).reverse.lookup k = m.reverse.lookup k := by
  unfold assign
  split
  · exact lookup_reverse_replaceValue_ne key v m k h
  · exact lookup_reverse_insertOrdered_ne key v m k h

theorem lookup_reverse_of_nodup {α : Type} (m : OrderedMap α) (k : String)
    (h : (getMemberNames m).Nodup) : m.reverse.lookup k = m.lookup k := by
  induction m with
  | nil => rfl
  | cons e rest ih =>
    obtain ⟨k', x⟩ := e
    simp only [getMemberNames, List.map_cons, List.nodup_cons] at h ih
    rw [List.reverse_cons, List.lookup_append, ih h.2, List.lookup_cons]
    by_cases hk : k = k'
    · subst hk
      have : rest.lookup k = none := lookup_eq_none_of_not_mem rest k h.1
      simp [this, List.lookup_cons]
    · have hb : (k == k') = false := by simpa using hk
      simp [List.lookup_cons, hb]

/-! ## get_cvd_files as a map -/

theorem mem_getMemberNames_foldl_readEntry (l : OrderedMap JsonFile) (acc : OrderedMap CvdFile)
    (k : String) :
    k ∈ getMemberNames (l.foldl readEntry acc) ↔
      k ∈ getMemberNames acc ∨ k ∈ getMemberNames l := by
  induction l generalizing acc with
  | nil => simp [getMemberNames]
  | cons e rest ih =>
    rw [List.foldl_cons, ih, readEntry, mem_getMemberNames_assign]
    simp only [getMemberNames, List.map_cons, List.mem_cons]
    tauto

theorem nodup_getMemberNames_foldl_readEntry (l : OrderedMap JsonFile)
    (acc : OrderedMap CvdFile) (h : (getMemberNames acc).Nodup) :
    (getMemberNames (l.foldl readEntry acc)).Nodup := by
  induction l generalizing acc with
  | nil => exact h
  | cons e rest ih =>
    rw [List.foldl_cons]
    exact ih _ (nodup_getMemberNames_assign acc e.1 _ h)

theorem lookup_foldl_readEntry (l : OrderedMap JsonFile) (acc : OrderedMap CvdFile)
    (k : String) :
    (l.foldl readEntry acc).lookup k =
      (match l.reverse.lookup k with
        | some json => some (JsonToCvdFile k json)
        | none => acc.lookup k) := by
  induction l generalizing acc with
  | nil => rfl
  | cons e rest ih =>
    obtain ⟨k', x⟩ := e
    rw [List.foldl_cons, ih, List.reverse_cons, List.lookup_append]
    cases hr : rest.reverse.lookup k with
    | some json => rfl
    | none =>
      by_cases hk : k = k'
      · subst hk
        simp [readEntry, lookup_assign_self, List.lookup_cons]
      · have hb : (k == k') = false := by simpa using hk
        simp [readEntry, lookup_assign_ne _ _ _ _ hk, List.lookup_cons, hb]

/-! ## add_cvd_file -/

theorem mem_trackedPaths_iff (c : FetcherConfig) (k : String) :
    k ∈ trackedPaths c ↔ ∃ files, c.cvd_files = some files ∧ isMember files k = true := by
  obtain ⟨cf⟩ := c
  cases cf with
  | none => simp [trackedPaths]
  | some files => simp [trackedPaths, isMember_iff_mem]

theorem add_cvd_file_of_tracked (c : FetcherConfig) (f : CvdFile)
    (h : f.file_path ∈ trackedPaths c) : add_cvd_file c f false = (false, c) := by
  obtain ⟨files, hc, hm⟩ := (mem_trackedPaths_iff c f.file_path).1 h
  obtain ⟨cf⟩ := c
  simp only at hc
  subst hc
  simp [add_cvd_file, hm]

theorem add_cvd_file_of_accepted (c : FetcherConfig) (f : CvdFile) (override_entry : Bool)
    (h : override_entry = true ∨ f.file_path ∉ trackedPaths c) :
    add_cvd_file c f override_entry =
      (true, { cvd_files := some (assign (c.cvd_files.getD []) f.file_path (CvdFileToJson f)) }) := by
  obtain ⟨cf⟩ := c
  cases cf with
  | none => simp [add_cvd_file, isMember]
  | some files =>
    rcases h with h | h
    · simp [add_cvd_file, h]
    · have hm : isMember files f.file_path = false := by
        simpa [trackedPaths, ← isMember_iff_mem] using h
      simp [add_cvd_file, hm]

theorem add_cvd_file_fst (c : FetcherConfig) (f : CvdFile) (override_entry : Bool) :
    (add_cvd_file c f override_entry).1 = true ↔
      (override_entry = true ∨ f.file_path ∉ trackedPaths c) := by
  constructor
  · intro h
    by_contra hn
    simp only [not_or, not_not, Bool.not_eq_true] at hn
    rw [hn.1, add_cvd_file_of_tracked c f hn.2] at h
    exact Bool.false_ne_true h
  · intro h
    rw [add_cvd_file_of_accepted c f override_entry h]

theorem trackedPaths_getD (c : FetcherConfig) :
    getMemberNames (c.cvd_files.getD []) = trackedPaths c := by
  obtain ⟨cf⟩ := c
  cases cf <;> rfl

theorem mem_getMemberNames_get_cvd_files (c : FetcherConfig) (k : String) :
    k ∈ getMemberNames (get_cvd_files c) ↔ k ∈ trackedPaths c := by
  obtain ⟨cf⟩ := c
  cases cf with
  | none => simp [get_cvd_files, trackedPaths, getMemberNames]
  | some files =>
    simp only [get_cvd_files, trackedPaths, mem_getMemberNames_foldl_readEntry]
    simp [getMemberNames]

theorem lookup_get_cvd_files (c : FetcherConfig) (k : String) :
    (get_cvd_files c).lookup k =
      ((c.cvd_files.getD []).reverse.lookup k).map (JsonToCvdFile k) := by
  obtain ⟨cf⟩ := c
  cases cf with
  | none => rfl
  | some files =>
    simp only [get_cvd_files, lookup_foldl_readEntry, Option.getD_some]
    cases files.reverse.lookup k <;> rfl

theorem lookup_get_cvd_files_of_unique (c : FetcherConfig) (k : String) (h : UniqueKeys c) :
    (get_cvd_files c).lookup k = ((c.cvd_files.getD []).lookup k).map (JsonToCvdFile k) := by
  rw [lookup_get_cvd_files, lookup_reverse_of_nodup]
  rw [trackedPaths_getD]
  exact h

/-- C1: when `f.file_path` is already a key of the manifest's `cvd_files`,
`add_cvd_file(f, false)` returns false and leaves the manifest as it was, so that
`get_cvd_files()` is the same before and after the call. -/
theorem add_cvd_file_rejects_tracked_path (c : FetcherConfig) (f : CvdFile)
    (h : f.file_path ∈ trackedPaths c) :
    (add_cvd_file c f false).1 = false ∧ (add_cvd_file c f false).2 = c ∧
      get_cvd_files (add_cvd_file c f false).2 = get_cvd_files c := by
  rw [add_cvd_file_of_tracked c f h]
  exact ⟨rfl, rfl, rfl⟩

theorem add_cvd_file_rejects_tracked_path_witness :
    "a" ∈ trackedPaths { cvd_files := some [("a", [("source", "boot_build")])] } ∧
      (add_cvd_file { cvd_files := some [("a", [("source", "boot_build")])] }
        ⟨FileSource.LOCAL_FILE, "7", "t", "a"⟩ false).1 = false :=
  ⟨by decide,
    (add_cvd_file_rejects_tracked_path { cvd_files := some [("a", [("source", "boot_build")])] }
      ⟨FileSource.LOCAL_FILE, "7", "t", "a"⟩ (by decide)).1⟩

/-- C2: `add_cvd_file(f, true)`, and `add_cvd_file(f, false)` for a path that is not
yet a key, return true; afterwards the keys of `get_cvd_files()` are the old keys
plus `f.file_path`, and the entry under every other key is what it was. -/
theorem add_cvd_file_adds_path (c : FetcherConfig) (f : CvdFile) (override_entry : Bool)
    (h : override_entry = true ∨ f.file_path ∉ trackedPaths c) :
    (add_cvd_file c f override_entry).1 = true ∧
      (∀ k, k ∈ getMemberNames (get_cvd_files (add_cvd_file c f override_entry).2) ↔
        k ∈ getMemberNames (get_cvd_files c) ∨ k = f.file_path) ∧
      (∀ k, k ≠ f.file_path →
        (get_cvd_files (add_cvd_file c f override_entry).2).lookup k =
          (get_cvd_files c).lookup k) := by
  rw [add_cvd_file_of_accepted c f override_entry h]
  refine ⟨rfl, fun k => ?_, fun k hk => ?_⟩
  · simp only [mem_getMemberNames_get_cvd_files]
    simp only [trackedPaths, mem_getMemberNames_assign, trackedPaths_getD]
    tauto
  · simp only [lookup_get_cvd_files, Option.getD_some, lookup_reverse_assign_ne _ _ _ _ hk]

theorem add_cvd_file_adds_path_witness :
    (true = true ∨ "a" ∉ trackedPaths { cvd_files := some [("a", [("source", "boot_build")])] }) ∧
      (add_cvd_file { cvd_files := some [("a", [("source", "boot_build")])] }
        ⟨FileSource.LOCAL_FILE, "7", "t", "a"⟩ true).1 = true :=
  ⟨by decide,
    (add_cvd_file_adds_path { cvd_files := some [("a", [("source", "boot_build")])] }
      ⟨FileSource.LOCAL_FILE, "7", "t", "a"⟩ true (by decide)).1⟩

/-! ## The JSON form of a CvdFile -/

theorem CvdFileToJson_eq (f : CvdFile) :
    CvdFileToJson f =
      [("build_id", f.build_id), ("build_target", f.build_target),
        ("source", SourceEnumToString f.source)] := by
  rfl

theorem SourceStringToEnum_SourceEnumToString (s : FileSource) :
    SourceStringToEnum (SourceEnumToString s) = s := by
  cases s <;> rfl

theorem JsonToCvdFile_CvdFileToJson (path : String) (f : CvdFile) :
    JsonToCvdFile path (CvdFileToJson f) =
      { source := f.source, build_id := f.build_id, build_target := f.build_target,
        file_path := path } := by
  rw [CvdFileToJson_eq]
  have h1 : isMember [("build_id", f.build_id), ("build_target", f.build_target),
      ("source", SourceEnumToString f.source)] kCvdFileSource = true := rfl
  have h2 : isMember [("build_id", f.build_id), ("build_target", f.build_target),
      ("source", SourceEnumToString f.source)] kCvdFileBuildId = true := rfl
  have h3 : isMember [("build_id", f.build_id), ("build_target", f.build_target),
      ("source", SourceEnumToString f.source)] kCvdFileBuildTarget = true := rfl
  have h4 : asStringAt [("build_id", f.build_id), ("build_target", f.build_target),
      ("source", SourceEnumToString f.source)] kCvdFileSource = SourceEnumToString f.source := rfl
  have h5 : asStringAt [("build_id", f.build_id), ("build_target", f.build_target),
      ("source", SourceEnumToString f.source)] kCvdFileBuildId = f.build_id := rfl
  have h6 : asStringAt [("build_id", f.build_id), ("build_target", f.build_target),
      ("source", SourceEnumToString f.source)] kCvdFileBuildTarget = f.build_target := rfl
  simp only [JsonToCvdFile, h1, h2, h3, h4, h5, h6, if_true,
    SourceStringToEnum_SourceEnumToString]

theorem unique_add_cvd_file (c : FetcherConfig) (f : CvdFile) (override_entry : Bool)
    (h : UniqueKeys c) : UniqueKeys (add_cvd_file c f override_entry).2 := by
  by_cases ha : override_entry = true ∨ f.file_path ∉ trackedPaths c
  · rw [add_cvd_file_of_accepted c f override_entry ha]
    simp only [UniqueKeys, trackedPaths]
    apply nodup_getMemberNames_assign
    rw [trackedPaths_getD]
    exact h
  · simp only [not_or, not_not, Bool.not_eq_true] at ha
    rw [ha.1, add_cvd_file_of_tracked c f ha.2]
    exact h

/-- C3: on a manifest whose path keys are unique, when `add_cvd_file(f, override_entry)`
returns true, `get_cvd_files()` maps `f.file_path` to a CvdFile equal to `f` in all
four fields; that is, `JsonToCvdFile(f.file_path, CvdFileToJson(f)) = f`, for each of
the eleven FileSource values. -/
theorem add_get_round_trip (c : FetcherConfig) (f : CvdFile) (override_entry : Bool)
    (hu : UniqueKeys c) (h : (add_cvd_file c f override_entry).1 = true) :
    (get_cvd_files (add_cvd_file c f override_entry).2).lookup f.file_path = some f ∧
      JsonToCvdFile f.file_path (CvdFileToJson f) = f := by
  have hj : JsonToCvdFile f.file_path (CvdFileToJson f) = f := JsonToCvdFile_CvdFileToJson _ f
  refine ⟨?_, hj⟩
  rw [lookup_get_cvd_files_of_unique _ _ (unique_add_cvd_file c f override_entry hu)]
  rw [add_cvd_file_of_accepted c f override_entry ((add_cvd_file_fst c f override_entry).1 h)]
  simp only [Option.getD_some, lookup_assign_self, Option.map_some', hj]

theorem add_get_round_trip_witness :
    UniqueKeys { cvd_files := some [("a", [("source", "boot_build")])] } ∧
      (add_cvd_file { cvd_files := some [("a", [("source", "boot_build")])] }
        ⟨FileSource.CHROME_OS_BUILD, "7", "t", "b"⟩ false).1 = true ∧
      (get_cvd_files (add_cvd_file { cvd_files := some [("a", [("source", "boot_build")])] }
        ⟨FileSource.CHROME_OS_BUILD, "7", "t", "b"⟩ false).2).lookup "b" =
          some ⟨FileSource.CHROME_OS_BUILD, "7", "t", "b"⟩ :=
  ⟨by decide, by decide,
    (add_get_round_trip { cvd_files := some [("a", [("source", "boot_build")])] }
      ⟨FileSource.CHROME_OS_BUILD, "7", "t", "b"⟩ false (by decide) (by decide)).1⟩

/-! ## FindCvdFileWithSuffix -/

theorem EndsWith_iff (s suffix : String) : EndsWith s suffix = true ↔ suffix.data <:+ s.data := by
  simp [EndsWith]

/-- C4: `FindCvdFileWithSuffix(suffix)` returns a tracked path that ends with `suffix`
whenever some tracked path does, and the empty string when none does, as when the
manifest has no `cvd_files` member; when exactly one tracked path ends with
`suffix`, it returns that path. -/
theorem FindCvdFileWithSuffix_finds (c : FetcherConfig) (suffix : String) :
    ((∃ k ∈ trackedPaths c, suffix.data <:+ k.data) →
        FindCvdFileWithSuffix c suffix ∈ trackedPaths c ∧
          suffix.data <:+ (FindCvdFileWithSuffix c suffix).data) ∧
      ((∀ k ∈ trackedPaths c, ¬ suffix.data <:+ k.data) → FindCvdFileWithSuffix c suffix = "") ∧
      (c.cvd_files = none → FindCvdFileWithSuffix c suffix = "") ∧
      (∀ p ∈ trackedPaths c, suffix.data <:+ p.data →
        (∀ k ∈ trackedPaths c, suffix.data <:+ k.data → k = p) →
          FindCvdFileWithSuffix c suffix = p) := by
  obtain ⟨cf⟩ := c
  cases cf with
  | none => simp [FindCvdFileWithSuffix, trackedPaths]
  | some files =>
    have hfound : (∃ k ∈ trackedPaths ⟨some files⟩, suffix.data <:+ k.data) →
        FindCvdFileWithSuffix ⟨some files⟩ suffix ∈ trackedPaths ⟨some files⟩ ∧
          suffix.data <:+ (FindCvdFileWithSuffix ⟨some files⟩ suffix).data := by
      rintro ⟨k, hk, hs⟩
      simp only [trackedPaths, getMemberNames, List.mem_map] at hk
      obtain ⟨e, he, rfl⟩ := hk
      simp only [FindCvdFileWithSuffix, trackedPaths]
      cases hf : files.find? (fun it => EndsWith it.1 suffix) with
      | none =>
        have := List.find?_eq_none.1 hf e he
        simp [EndsWith_iff] at this
        exact absurd hs this
      | some it =>
        have h1 := List.find?_some hf
        have h2 := List.mem_of_find?_eq_some hf
        simp only [EndsWith_iff] at h1
        exact ⟨List.mem_map_of_mem _ h2, h1⟩
    refine ⟨hfound, ?_, ?_, ?_⟩
    · intro hnone
      simp only [FindCvdFileWithSuffix]
      cases hf : files.find? (fun it => EndsWith it.1 suffix) with
      | none => rfl
      | some it =>
        have h1 := List.find?_some hf
        have h2 := List.mem_of_find?_eq_some hf
        simp only [EndsWith_iff] at h1
        exact absurd h1 (hnone it.1 (List.mem_map_of_mem _ h2))
    · intro h; cases h
    · intro p hp hs huniq
      obtain ⟨h1, h2⟩ := hfound ⟨p, hp, hs⟩
      exact huniq _ h1 h2

/-! ## AddFilesToConfig -/

theorem mem_trackedPaths_add_cvd_file (c : FetcherConfig) (f : CvdFile) (override_entry : Bool)
    (k : String) :
    k ∈ trackedPaths (add_cvd_file c f override_entry).2 ↔
      k ∈ trackedPaths c ∨
        (k = f.file_path ∧ (override_entry = true ∨ f.file_path ∉ trackedPaths c)) := by
  by_cases ha : override_entry = true ∨ f.file_path ∉ trackedPaths c
  · rw [add_cvd_file_of_accepted c f override_entry ha]
    simp only [trackedPaths, mem_getMemberNames_assign, trackedPaths_getD]
    tauto
  · have ha' := ha
    simp only [not_or, not_not, Bool.not_eq_true] at ha'
    rw [ha'.1, add_cvd_file_of_tracked c f ha'.2]
    constructor
    · exact Or.inl
    · rintro (h | ⟨_, h⟩)
      · exact h
      · rcases h with h | h
        · exact absurd h Bool.false_ne_true
        · exact absurd ha'.2 h

theorem AddFilesToConfig_nil (c : FetcherConfig) (purpose : FileSource)
    (build_id build_target pre : String) (override_entry : Bool) :
    AddFilesToConfig c purpose build_id build_target [] pre override_entry =
      (Except.ok (), c) := by
  simp [AddFilesToConfig]

theorem AddFilesToConfig_cons_accepted (c : FetcherConfig) (purpose : FileSource)
    (build_id build_target pre : String) (override_entry : Bool) (p : String)
    (rest : List String)
    (h : override_entry = true ∨ localPath p pre ∉ trackedPaths c) :
    AddFilesToConfig c purpose build_id build_target (p :: rest) pre override_entry =
      AddFilesToConfig
        (add_cvd_file c ⟨purpose, build_id, build_target, localPath p pre⟩ override_entry).2
        purpose build_id build_target rest pre override_entry := by
  have hacc := add_cvd_file_of_accepted c ⟨purpose, build_id, build_target, localPath p pre⟩
    override_entry h
  rw [AddFilesToConfig]
  simp only [hacc]

theorem AddFilesToConfig_cons_rejected (c : FetcherConfig) (purpose : FileSource)
    (build_id build_target pre : String) (p : String) (rest : List String)
    (h : localPath p pre ∈ trackedPaths c) :
    AddFilesToConfig c purpose build_id build_target (p :: rest) pre false =
      (Except.error
        { file := ⟨purpose, build_id, build_target, localPath p pre⟩,
          existing := (get_cvd_files c).lookup p, path := p }, c) := by
  have hrej := add_cvd_file_of_tracked c ⟨purpose, build_id, build_target, localPath p pre⟩ h
  rw [AddFilesToConfig]
  simp only [hrej]

theorem AddFilesToConfig_override_ok (c : FetcherConfig) (purpose : FileSource)
    (build_id build_target pre : String) (paths : List String) :
    (AddFilesToConfig c purpose build_id build_target paths pre true).1 = Except.ok () := by
  induction paths generalizing c with
  | nil => rw [AddFilesToConfig_nil]
  | cons p rest ih =>
    rw [AddFilesToConfig_cons_accepted c purpose build_id build_target pre true p rest
      (Or.inl rfl)]
    exact ih _

theorem AddFilesToConfig_error_iff (c : FetcherConfig) (purpose : FileSource)
    (build_id build_target pre : String) (paths : List String) :
    (∃ e, (AddFilesToConfig c purpose build_id build_target paths pre false).1 =
        Except.error e) ↔
      ∃ l1 p l2, paths = l1 ++ p :: l2 ∧
        (localPath p pre ∈ trackedPaths c ∨ ∃ q ∈ l1, localPath q pre = localPath p pre) := by
  induction paths generalizing c with
  | nil =>
    rw [AddFilesToConfig_nil]
    constructor
    · rintro ⟨e, he⟩; cases he
    · rintro ⟨l1, p, l2, h, _⟩
      exact absurd h (by simp)
  | cons p rest ih =>
    by_cases ht : localPath p pre ∈ trackedPaths c
    · rw [AddFilesToConfig_cons_rejected c purpose build_id build_target pre p rest ht]
      constructor
      · intro _
        exact ⟨[], p, rest, rfl, Or.inl ht⟩
      · intro _
        exact ⟨_, rfl⟩
    · rw [AddFilesToConfig_cons_accepted c purpose build_id build_target pre false p rest
        (Or.inr ht), ih]
      constructor
      · rintro ⟨l1, q, l2, hrest, hq⟩
        refine ⟨p :: l1, q, l2, by rw [hrest]; rfl, ?_⟩
        rcases hq with hq | ⟨q', hq', hqq⟩
        · rcases (mem_trackedPaths_add_cvd_file _ _ _ _).1 hq with h | ⟨h, _⟩
          · exact Or.inl h
          · exact Or.inr ⟨p, List.mem_cons_self _ _, h.symm⟩
        · exact Or.inr ⟨q', List.mem_cons_of_mem _ hq', hqq⟩
      · rintro ⟨l1, q, l2, hpaths, hq⟩
        cases l1 with
        | nil =>
          simp only [List.nil_append, List.cons.injEq] at hpaths
          obtain ⟨rfl, rfl⟩ := hpaths
          rcases hq with hq | ⟨q', hq', _⟩
          · exact absurd hq ht
          · cases hq'
        | cons a l1' =>
          simp only [List.cons_append, List.cons.injEq] at hpaths
          obtain ⟨rfl, rfl⟩ := hpaths
          refine ⟨l1', q, l2, rfl, ?_⟩
          rcases hq with hq | ⟨q', hq', hqq⟩
          · exact Or.inl ((mem_trackedPaths_add_cvd_file _ _ _ _).2 (Or.inl hq))
          · rcases List.mem_cons.1 hq' with rfl | hq'
            · exact Or.inl ((mem_trackedPaths_add_cvd_file _ _ _ _).2
                (Or.inr ⟨hqq.symm, Or.inr ht⟩))
            · exact Or.inr ⟨q', hq', hqq⟩

/-- C6: `AddFilesToConfig` returns an error exactly when `override_entry` is false and
the stripped key of some path is already tracked in the manifest or is the stripped
key of an earlier path of the same call; with `override_entry` true it succeeds for
every list of paths.  Two different paths with one stripped key are a duplicate:
`dir/a` and `dir//a` under the prefix `dir`. -/
theorem AddFilesToConfig_fails_iff_duplicate (c : FetcherConfig) (purpose : FileSource)
    (build_id build_target pre : String) (paths : List String) (override_entry : Bool) :
    ((∃ e, (AddFilesToConfig c purpose build_id build_target paths pre override_entry).1 =
          Except.error e) ↔
        (override_entry = false ∧
          ∃ earlier p later, paths = earlier ++ p :: later ∧
            (localPath p pre ∈ trackedPaths c ∨
              ∃ q ∈ earlier, localPath q pre = localPath p pre))) ∧
      (AddFilesToConfig c purpose build_id build_target paths pre true).1 = Except.ok () ∧
      (∃ e, (AddFilesToConfig c purpose build_id build_target ["dir/a", "dir//a"] "dir"
          false).1 = Except.error e) := by
  refine ⟨?_, AddFilesToConfig_override_ok c purpose build_id build_target pre paths, ?_⟩
  · cases override_entry with
    | true =>
      rw [AddFilesToConfig_override_ok]
      constructor
      · rintro ⟨e, he⟩; cases he
      · rintro ⟨h, _⟩; cases h
    | false =>
      rw [AddFilesToConfig_error_iff]
      simp
  · rw [AddFilesToConfig_error_iff]
    exact ⟨["dir/a"], "dir//a", [], rfl, Or.inr ⟨"dir/a", List.mem_singleton.2 rfl, by decide⟩⟩

theorem consumeSlashes_eq_dropWhile (l : List Char) :
    consumeSlashes l = l.dropWhile (fun ch => ch == '/') := by
  induction l with
  | nil => rfl
  | cons ch rest ih =>
    by_cases h : ch = '/'
    · simp [consumeSlashes, h, List.dropWhile_cons, ih]
    · simp [consumeSlashes, h, List.dropWhile_cons]

theorem head?_consumeSlashes (l : List Char) : (consumeSlashes l).head? ≠ some '/' := by
  induction l with
  | nil => simp [consumeSlashes]
  | cons ch rest ih =>
    by_cases h : ch = '/'
    · simpa [consumeSlashes, h] using ih
    · simp [consumeSlashes, h]

theorem localPath_eq_strippedKey (p pre : String) (h : pre.data <+: p.data) :
    localPath p pre = strippedKey p pre := by
  have hs : StartsWith p pre = true := by
    simpa [StartsWith] using h
  simp [localPath, strippedKey, ConsumePrefix, hs, consumeSlashes_eq_dropWhile]

theorem lookup_get_cvd_files_add_ne (c : FetcherConfig) (f : CvdFile) (override_entry : Bool)
    (k : String) (hk : k ≠ f.file_path) :
    (get_cvd_files (add_cvd_file c f override_entry).2).lookup k =
      (get_cvd_files c).lookup k := by
  by_cases ha : override_entry = true ∨ f.file_path ∉ trackedPaths c
  · rw [add_cvd_file_of_accepted c f override_entry ha]
    simp only [lookup_get_cvd_files, Option.getD_some, lookup_reverse_assign_ne _ _ _ _ hk]
  · simp only [not_or, not_not, Bool.not_eq_true] at ha
    rw [ha.1, add_cvd_file_of_tracked c f ha.2]

theorem lookup_get_cvd_files_add_self (c : FetcherConfig) (f : CvdFile) (override_entry : Bool)
    (hu : UniqueKeys c) (ha : override_entry = true ∨ f.file_path ∉ trackedPaths c) :
    (get_cvd_files (add_cvd_file c f override_entry).2).lookup f.file_path = some f := by
  rw [lookup_get_cvd_files_of_unique _ _ (unique_add_cvd_file c f override_entry hu)]
  rw [add_cvd_file_of_accepted c f override_entry ha]
  simp only [Option.getD_some, lookup_assign_self, Option.map_some',
    JsonToCvdFile_CvdFileToJson]

theorem mem_trackedPaths_of_lookup (c : FetcherConfig) (k : String) (v : CvdFile)
    (h : (get_cvd_files c).lookup k = some v) : k ∈ trackedPaths c := by
  rw [← mem_getMemberNames_get_cvd_files, ← isMember_iff_mem, isMember, h]
  rfl

theorem AddFilesToConfig_accepted_of_ok (c : FetcherConfig) (purpose : FileSource)
    (build_id build_target pre : String) (override_entry : Bool) (p : String)
    (rest : List String)
    (hok : (AddFilesToConfig c purpose build_id build_target (p :: rest) pre
      override_entry).1 = Except.ok ()) :
    override_entry = true ∨ localPath p pre ∉ trackedPaths c := by
  by_contra ha
  simp only [not_or, not_not, Bool.not_eq_true] at ha
  rw [ha.1, AddFilesToConfig_cons_rejected c purpose build_id build_target pre p rest ha.2]
    at hok
  cases hok

theorem unique_AddFilesToConfig (c : FetcherConfig) (purpose : FileSource)
    (build_id build_target pre : String) (paths : List String) (override_entry : Bool)
    (hu : UniqueKeys c) :
    UniqueKeys (AddFilesToConfig c purpose build_id build_target paths pre override_entry).2 := by
  induction paths generalizing c with
  | nil => rw [AddFilesToConfig_nil]; exact hu
  | cons p rest ih =>
    by_cases ha : override_entry = true ∨ localPath p pre ∉ trackedPaths c
    · rw [AddFilesToConfig_cons_accepted c purpose build_id build_target pre override_entry p
        rest ha]
      exact ih _ (unique_add_cvd_file c _ override_entry hu)
    · simp only [not_or, not_not, Bool.not_eq_true] at ha
      rw [ha.1, AddFilesToConfig_cons_rejected c purpose build_id build_target pre p rest ha.2]
      exact hu

theorem AddFilesToConfig_keeps_entry (c : FetcherConfig) (purpose : FileSource)
    (build_id build_target pre : String) (paths : List String) (override_entry : Bool)
    (hu : UniqueKeys c)
    (hok : (AddFilesToConfig c purpose build_id build_target paths pre override_entry).1 =
      Except.ok ())
    (k : String)
    (hk : (get_cvd_files c).lookup k = some ⟨purpose, build_id, build_target, k⟩) :
    (get_cvd_files
        (AddFilesToConfig c purpose build_id build_target paths pre override_entry).2).lookup k =
      some ⟨purpose, build_id, build_target, k⟩ := by
  induction paths generalizing c with
  | nil => rw [AddFilesToConfig_nil]; exact hk
  | cons p rest ih =>
    have ha := AddFilesToConfig_accepted_of_ok c purpose build_id build_target pre
      override_entry p rest hok
    rw [AddFilesToConfig_cons_accepted c purpose build_id build_target pre override_entry p
      rest ha] at hok ⊢
    apply ih _ (unique_add_cvd_file c _ override_entry hu) hok
    by_cases hkp : k = localPath p pre
    · subst hkp
      exact lookup_get_cvd_files_add_self c ⟨purpose, build_id, build_target, localPath p pre⟩
        override_entry hu ha
    · rw [lookup_get_cvd_files_add_ne c _ override_entry k hkp]
      exact hk

theorem AddFilesToConfig_records (c : FetcherConfig) (purpose : FileSource)
    (build_id build_target pre : String) (paths : List String) (override_entry : Bool)
    (hu : UniqueKeys c)
    (hok : (AddFilesToConfig c purpose build_id build_target paths pre override_entry).1 =
      Except.ok ())
    (p : String) (hp : p ∈ paths) :
    (get_cvd_files
        (AddFilesToConfig c purpose build_id build_target paths pre
          override_entry).2).lookup (localPath p pre) =
      some ⟨purpose, build_id, build_target, localPath p pre⟩ := by
  induction paths generalizing c with
  | nil => cases hp
  | cons q rest ih =>
    have ha := AddFilesToConfig_accepted_of_ok c purpose build_id build_target pre
      override_entry q rest hok
    rw [AddFilesToConfig_cons_accepted c purpose build_id build_target pre override_entry q
      rest ha] at hok ⊢
    have hu1 := unique_add_cvd_file c ⟨purpose, build_id, build_target, localPath q pre⟩
      override_entry hu
    rcases List.mem_cons.1 hp with rfl | hp
    · exact AddFilesToConfig_keeps_entry _ purpose build_id build_target pre rest
        override_entry hu1 hok _
        (lookup_get_cvd_files_add_self c ⟨purpose, build_id, build_target, localPath p pre⟩
          override_entry hu ha)
    · exact ih _ hu1 hok hp

/-- C5: after a call of `AddFilesToConfig` that succeeds, on a manifest whose path
keys are unique, for every path `p` of `paths` that starts with the directory prefix
the manifest tracks the key obtained from `p` by removing the prefix and then every
leading `/`; that key does not start with `/`, and its entry carries the given
purpose, build id and build target. -/
theorem AddFilesToConfig_tracks_stripped_paths (c : FetcherConfig) (purpose : FileSource)
    (build_id build_target pre : String) (paths : List String) (override_entry : Bool)
    (hu : UniqueKeys c)
    (hok : (AddFilesToConfig c purpose build_id build_target paths pre override_entry).1 =
      Except.ok ())
    (p : String) (hp : p ∈ paths) (hpre : pre.data <+: p.data) :
    strippedKey p pre ∈ trackedPaths
        (AddFilesToConfig c purpose build_id build_target paths pre override_entry).2 ∧
      (strippedKey p pre).data.head? ≠ some '/' ∧
      (get_cvd_files
          (AddFilesToConfig c purpose build_id build_target paths pre
            override_entry).2).lookup (strippedKey p pre) =
        some ⟨purpose, build_id, build_target, strippedKey p pre⟩ := by
  have hrec := AddFilesToConfig_records c purpose build_id build_target pre paths
    override_entry hu hok p hp
  rw [localPath_eq_strippedKey p pre hpre] at hrec
  refine ⟨mem_trackedPaths_of_lookup _ _ _ hrec, ?_, hrec⟩
  rw [← localPath_eq_strippedKey p pre hpre]
  exact head?_consumeSlashes _

theorem AddFilesToConfig_tracks_stripped_paths_witness :
    UniqueKeys { cvd_files := some [("x", [])] } ∧
      (get_cvd_files
          (AddFilesToConfig { cvd_files := some [("x", [])] } FileSource.KERNEL_BUILD "9" "tgt"
            ["out//boot.img", "out/x/y"] "out" false).2).lookup (strippedKey "out//boot.img" "out") =
        some ⟨FileSource.KERNEL_BUILD, "9", "tgt", strippedKey "out//boot.img" "out"⟩ :=
  ⟨by decide,
    (AddFilesToConfig_tracks_stripped_paths { cvd_files := some [("x", [])] }
      FileSource.KERNEL_BUILD "9" "tgt" "out" ["out//boot.img", "out/x/y"] false
      (by decide) (by decide) "out//boot.img" (by decide) (by decide)).2.2⟩

/-! ## The key invariant -/

theorem mem_replaceValue {α : Type} (key : String) (v : α) (m : OrderedMap α)
    (e : String × α) (h : e ∈ replaceValue key v m) : e = (key, v) ∨ e ∈ m := by
  induction m with
  | nil => simp [replaceValue] at h
  | cons a rest ih =>
    obtain ⟨k, x⟩ := a
    simp only [replaceValue] at h
    by_cases hk : k = key
    · rw [if_pos hk] at h
      rcases List.mem_cons.1 h with h | h
      · exact Or.inl (by rw [h, hk])
      · exact Or.inr (List.mem_cons_of_mem _ h)
    · rw [if_neg hk] at h
      rcases List.mem_cons.1 h with h | h
      · exact Or.inr (by rw [h]; exact List.mem_cons_self _ _)
      · exact (ih h).imp id (List.mem_cons_of_mem _)

theorem mem_insertOrdered {α : Type} (key : String) (v : α) (m : OrderedMap α)
    (e : String × α) (h : e ∈ insertOrdered key v m) : e = (key, v) ∨ e ∈ m := by
  induction m with
  | nil => simpa [insertOrdered] using h
  | cons a rest ih =>
    obtain ⟨k, x⟩ := a
    simp only [insertOrdered] at h
    split at h
    · rcases List.mem_cons.1 h with h | h
      · exact Or.inl h
      · exact Or.inr h
    · rcases List.mem_cons.1 h with h | h
      · exact Or.inr (by rw [h]; exact List.mem_cons_self _ _)
      · exact (ih h).imp id (List.mem_cons_of_mem _)

theorem mem_assign {α : Type} (m : OrderedMap α) (key : String) (v : α) (e : String × α)
    (h : e ∈ assign m key v) : e = (key, v) ∨ e ∈ m := by
  unfold assign at h
  split at h
  · exact mem_replaceValue key v m e h
  · exact mem_insertOrdered key v m e h

theorem file_path_foldl_readEntry (l : OrderedMap JsonFile) (acc : OrderedMap CvdFile)
    (hacc : ∀ e ∈ acc, e.2.file_path = e.1) :
    ∀ e ∈ l.foldl readEntry acc, e.2.file_path = e.1 := by
  induction l generalizing acc with
  | nil => exact hacc
  | cons a rest ih =>
    rw [List.foldl_cons]
    apply ih
    intro e he
    rcases mem_assign _ _ _ _ he with rfl | he
    · rfl
    · exact hacc e he

theorem file_path_get_cvd_files (c : FetcherConfig) :
    ∀ e ∈ get_cvd_files c, e.2.file_path = e.1 := by
  obtain ⟨cf⟩ := c
  cases cf with
  | none => intro e he; cases he
  | some files => exact file_path_foldl_readEntry files [] (fun e he => by cases he)

theorem nodup_getMemberNames_get_cvd_files (c : FetcherConfig) :
    (getMemberNames (get_cvd_files c)).Nodup := by
  obtain ⟨cf⟩ := c
  cases cf with
  | none => exact List.nodup_nil
  | some files => exact nodup_getMemberNames_foldl_readEntry files [] List.nodup_nil

theorem length_get_cvd_files (c : FetcherConfig) (hu : UniqueKeys c) :
    (get_cvd_files c).length = (trackedPaths c).length := by
  have hperm : (getMemberNames (get_cvd_files c)).Perm (trackedPaths c) :=
    (List.perm_ext_iff_of_nodup (nodup_getMemberNames_get_cvd_files c) hu).2
      (mem_getMemberNames_get_cvd_files c)
  have := hperm.length_eq
  simpa [getMemberNames] using this

theorem trackedPaths_add_cvd_file_of_tracked (c : FetcherConfig) (f : CvdFile)
    (h : f.file_path ∈ trackedPaths c) :
    trackedPaths (add_cvd_file c f true).2 = trackedPaths c := by
  rw [add_cvd_file_of_accepted c f true (Or.inl rfl)]
  have hm : isMember (c.cvd_files.getD []) f.file_path = true := by
    rw [isMember_iff_mem, trackedPaths_getD]; exact h
  simp only [trackedPaths, assign, hm, if_true, getMemberNames_replaceValue, trackedPaths_getD]

theorem unique_of_reachable (c : FetcherConfig) (h : Reachable c) : UniqueKeys c := by
  induction h with
  | fresh => exact List.nodup_nil
  | add c f o _ ih => exact unique_add_cvd_file c f o ih
  | addFiles c purpose build_id build_target paths pre o _ ih =>
    exact unique_AddFilesToConfig c purpose build_id build_target pre paths o ih

/-- C7: in every manifest reachable from the empty one by `add_cvd_file` and
`AddFilesToConfig` calls, `get_cvd_files()` holds exactly one entry for each tracked
path and none for any other, every entry `(k, v)` has `v.file_path = k`, and an
overriding add of a path that is already tracked keeps the number of entries. -/
theorem reachable_key_invariant (c : FetcherConfig) (h : Reachable c) :
    (∀ k ∈ trackedPaths c, (getMemberNames (get_cvd_files c)).count k = 1) ∧
      (∀ k, k ∉ trackedPaths c → (getMemberNames (get_cvd_files c)).count k = 0) ∧
      (∀ e ∈ get_cvd_files c, e.2.file_path = e.1) ∧
      (∀ f : CvdFile, f.file_path ∈ trackedPaths c →
        (get_cvd_files (add_cvd_file c f true).2).length = (get_cvd_files c).length) := by
  have hu := unique_of_reachable c h
  refine ⟨fun k hk => ?_, fun k hk => ?_, file_path_get_cvd_files c, fun f hf => ?_⟩
  · exact List.count_eq_one_of_mem (nodup_getMemberNames_get_cvd_files c)
      ((mem_getMemberNames_get_cvd_files c k).2 hk)
  · exact List.count_eq_zero_of_not_mem
      (fun hmem => hk ((mem_getMemberNames_get_cvd_files c k).1 hmem))
  · rw [length_get_cvd_files _ (unique_add_cvd_file c f true hu), length_get_cvd_files c hu,
      trackedPaths_add_cvd_file_of_tracked c f hf]

theorem reachable_key_invariant_witness :
    Reachable (add_cvd_file FetcherConfig.empty ⟨FileSource.BOOT_BUILD, "1", "t", "a"⟩ false).2 ∧
      (getMemberNames (get_cvd_files
        (add_cvd_file FetcherConfig.empty ⟨FileSource.BOOT_BUILD, "1", "t", "a"⟩
          false).2)).count "a" = 1 :=
  ⟨Reachable.add _ _ _ Reachable.fresh,
    (reachable_key_invariant _ (Reachable.add FetcherConfig.empty
      ⟨FileSource.BOOT_BUILD, "1", "t", "a"⟩ false Reachable.fresh)).1 "a" (by decide)⟩

/-! ## LoadFromFile: the rewriting of the keys -/

theorem lookup_removeMember_ne {α : Type} (m : OrderedMap α) (key x : String) (h : x ≠ key) :
    (removeMember m key).lookup x = m.lookup x := by
  induction m with
  | nil => rfl
  | cons e rest ih =>
    obtain ⟨k, v⟩ := e
    simp only [removeMember, decide_not] at ih ⊢
    by_cases hk : k = key
    · subst hk
      have hb : (x == k) = false := by simpa using h
      simp [List.filter_cons, List.lookup_cons, hb, ih]
    · simp [List.filter_cons, hk, List.lookup_cons, ih]

theorem mem_getMemberNames_removeMember {α : Type} (m : OrderedMap α) (key x : String) :
    x ∈ getMemberNames (removeMember m key) ↔ x ≠ key ∧ x ∈ getMemberNames m := by
  simp only [getMemberNames, removeMember, List.mem_map, List.mem_filter]
  constructor
  · rintro ⟨e, ⟨he, hne⟩, rfl⟩
    exact ⟨by simpa using hne, e, he, rfl⟩
  · rintro ⟨hne, e, he, rfl⟩
    exact ⟨e, ⟨he, by simpa using hne⟩, rfl⟩

theorem nodup_getMemberNames_removeMember {α : Type} (m : OrderedMap α) (key : String)
    (h : (getMemberNames m).Nodup) : (getMemberNames (removeMember m key)).Nodup := by
  simp only [getMemberNames, removeMember] at h ⊢
  exact h.sublist ((List.filter_sublist m).map Prod.fst)

theorem append_slash_injective (d k k' : String) (h : d ++ "/" ++ k = d ++ "/" ++ k') :
    k = k' := by
  have := congrArg String.data h
  simp only [String.data_append, List.append_cancel_left_eq] at this
  exact String.ext this


theorem adjustPath_loop (F : OrderedMap JsonFile) (d : String)
    (hfree : ∀ k ∈ getMemberNames F, d ++ "/" ++ k ∉ getMemberNames F)
    (remaining : List String) (S : OrderedMap JsonFile)
    (hnd : remaining.Nodup) (hsub : ∀ k ∈ remaining, k ∈ getMemberNames F)
    (ha : ∀ k ∈ remaining, S.lookup k = F.lookup k)
    (hb : ∀ k ∈ getMemberNames F, k ∉ remaining → S.lookup (d ++ "/" ++ k) = F.lookup k)
    (hc : ∀ x ∈ getMemberNames S,
      x ∈ remaining ∨ ∃ k ∈ getMemberNames F, k ∉ remaining ∧ x = d ++ "/" ++ k)
    (hS : (getMemberNames S).Nodup) :
    (∀ k ∈ getMemberNames F,
        (remaining.foldl (adjustPath d) S).lookup (d ++ "/" ++ k) = F.lookup k) ∧
      (∀ x ∈ getMemberNames (remaining.foldl (adjustPath d) S),
        ∃ k ∈ getMemberNames F, x = d ++ "/" ++ k) ∧
      (getMemberNames (remaining.foldl (adjustPath d) S)).Nodup := by
  induction remaining generalizing S with
  | nil =>
    refine ⟨fun k hk => hb k hk (List.not_mem_nil k), fun x hx => ?_, hS⟩
    rcases hc x hx with h | ⟨k, hk, _, rfl⟩
    · cases h
    · exact ⟨k, hk, rfl⟩
  | cons k rest ih =>
    have hkF : k ∈ getMemberNames F := hsub k (List.mem_cons_self _ _)
    have hkrest : k ∉ rest := (List.nodup_cons.1 hnd).1
    have hne : ∀ k' ∈ getMemberNames F, d ++ "/" ++ k' ≠ k := by
      intro k' hk' h
      exact hfree k' hk' (h ▸ hkF)
    rw [List.foldl_cons]
    apply ih
    · exact (List.nodup_cons.1 hnd).2
    · exact fun k' hk' => hsub k' (List.mem_cons_of_mem _ hk')
    · intro k' hk'
      have h1 : k' ≠ k := fun h => hkrest (h ▸ hk')
      have h2 : k' ≠ d ++ "/" ++ k := fun h =>
        hfree k hkF (h ▸ hsub k' (List.mem_cons_of_mem _ hk'))
      rw [adjustPath, lookup_removeMember_ne _ _ _ h1, lookup_assign_ne _ _ _ _ h2]
      exact ha k' (List.mem_cons_of_mem _ hk')
    · intro k' hk' hk'rest
      rw [adjustPath, lookup_removeMember_ne _ _ _ (hne k' hk')]
      by_cases hkk : k' = k
      · subst hkk
        rw [lookup_assign_self, ha k' (List.mem_cons_self _ _)]
        have hsome : (F.lookup k').isSome = true := (isMember_iff_mem F k').2 hk'
        cases hl : F.lookup k' with
        | none => rw [hl] at hsome; cases hsome
        | some e => rfl
      · have h3 : d ++ "/" ++ k' ≠ d ++ "/" ++ k := fun h =>
          hkk (append_slash_injective d k' k h)
        rw [lookup_assign_ne _ _ _ _ h3]
        apply hb k' hk'
        intro hmem
        rcases List.mem_cons.1 hmem with h | h
        · exact hkk h
        · exact hk'rest h
    · intro x hx
      rw [adjustPath, mem_getMemberNames_removeMember, mem_getMemberNames_assign] at hx
      obtain ⟨hxk, hx | hx⟩ := hx
      · exact Or.inr ⟨k, hkF, hkrest, hx⟩
      · rcases hc x hx with h | ⟨k', hk', hk'n, rfl⟩
        · rcases List.mem_cons.1 h with h | h
          · exact absurd h hxk
          · exact Or.inl h
        · exact Or.inr ⟨k', hk', fun h => hk'n (List.mem_cons_of_mem _ h), rfl⟩
    · rw [adjustPath]
      exact nodup_getMemberNames_removeMember _ _ (nodup_getMemberNames_assign _ _ _ hS)

/-- The loop of `LoadFromFile` does yield the map of the prefixed keys when no
prefixed key is itself a key of the parsed object: every entry is kept under its
prefixed key, no other key remains and the number of entries is the same. -/
theorem LoadFromFile_prefixes_paths (files : OrderedMap JsonFile) (d : String) (hd : d ≠ ".")
    (hu : (getMemberNames files).Nodup)
    (hfree : ∀ k ∈ getMemberNames files, d ++ "/" ++ k ∉ getMemberNames files) :
    ∃ adjusted, LoadFromFile { cvd_files := some files } d = { cvd_files := some adjusted } ∧
      (∀ k ∈ getMemberNames files, adjusted.lookup (d ++ "/" ++ k) = files.lookup k) ∧
      (∀ x, x ∈ getMemberNames adjusted ↔ ∃ k ∈ getMemberNames files, x = d ++ "/" ++ k) ∧
      adjusted.length = files.length := by
  obtain ⟨h1, h2, h3⟩ := adjustPath_loop files d hfree (getMemberNames files) files hu
    (fun _ h => h) (fun _ _ => rfl) (fun k hk hn => absurd hk hn) (fun x hx => Or.inl hx) hu
  refine ⟨(getMemberNames files).foldl (adjustPath d) files, ?_, h1, ?_, ?_⟩
  · simp [LoadFromFile, hd]
  · intro x
    constructor
    · exact h2 x
    · rintro ⟨k, hk, rfl⟩
      rw [← isMember_iff_mem, isMember, h1 k hk]
      exact (isMember_iff_mem files k).2 hk
  · have hmem : ∀ x, x ∈ getMemberNames ((getMemberNames files).foldl (adjustPath d) files) ↔
        x ∈ (getMemberNames files).map (fun k => d ++ "/" ++ k) := by
      intro x
      simp only [List.mem_map]
      constructor
      · intro hx
        obtain ⟨k, hk, rfl⟩ := h2 x hx
        exact ⟨k, hk, rfl⟩
      · rintro ⟨k, hk, rfl⟩
        rw [← isMember_iff_mem, isMember, h1 k hk]
        exact (isMember_iff_mem files k).2 hk
    have hinj : Function.Injective (fun k => d ++ "/" ++ k) :=
      fun a b h => append_slash_injective d a b h
    have hperm := (List.perm_ext_iff_of_nodup h3 (hu.map hinj)).2 hmem
    have := hperm.length_eq
    simpa [getMemberNames] using this

/-- C8: the loop of `LoadFromFile` does not yield the map of the prefixed keys when a
prefixed key is itself a key.  With the keys `a` and `b/a` and the base directory
`b`, the first round overwrites the entry of `b/a` with the entry of `a`, the second
moves it on to `b/b/a`: one tracked file is left of two, under a key that is the
prefixed form of `b/a` but with the metadata of `a`, and `b/a` is not tracked. -/
theorem LoadFromFile_loses_colliding_entry :
    LoadFromFile
        { cvd_files := some [("a", [("build_id", "1"), ("source", "default_build")]),
            ("b/a", [("build_id", "2"), ("source", "kernel_build")])] } "b" =
        { cvd_files := some [("b/b/a", [("build_id", "1"), ("source", "default_build")])] } ∧
      (get_cvd_files
        { cvd_files := some [("a", [("build_id", "1"), ("source", "default_build")]),
            ("b/a", [("build_id", "2"), ("source", "kernel_build")])] }).length = 2 ∧
      (get_cvd_files (LoadFromFile
        { cvd_files := some [("a", [("build_id", "1"), ("source", "default_build")]),
            ("b/a", [("build_id", "2"), ("source", "kernel_build")])] } "b")).length = 1 ∧
      "b/a" ∉ trackedPaths (LoadFromFile
        { cvd_files := some [("a", [("build_id", "1"), ("source", "default_build")]),
            ("b/a", [("build_id", "2"), ("source", "kernel_build")])] } "b") := by
  decide

/-! ## AddFilesToConfig: the reported existing file -/

/-- C9: the existing file that a failing `AddFilesToConfig` reports is looked up under
the input path, not under the colliding key.  With `a` tracked and the path `dir/a`
under the prefix `dir`, the colliding key is `a`, whose entry comes from build 1,
but the reported existing file is the default-constructed one; when `dir/a` is
tracked as well, the reported file is the entry of `dir/a`. -/
theorem AddFilesToConfig_reports_entry_of_input_path :
    (AddFilesToConfig
        { cvd_files := some [("a", CvdFileToJson ⟨FileSource.DEFAULT_BUILD, "1", "t", "a"⟩)] }
        FileSource.LOCAL_FILE "2" "u" ["dir/a"] "dir" false).1 =
        Except.error
          { file := ⟨FileSource.LOCAL_FILE, "2", "u", "a"⟩, existing := none, path := "dir/a" } ∧
      (get_cvd_files
        { cvd_files := some
            [("a", CvdFileToJson ⟨FileSource.DEFAULT_BUILD, "1", "t", "a"⟩)] }).lookup "a" =
        some ⟨FileSource.DEFAULT_BUILD, "1", "t", "a"⟩ ∧
      (AddFilesToConfig
        { cvd_files := some [("a", CvdFileToJson ⟨FileSource.DEFAULT_BUILD, "1", "t", "a"⟩),
            ("dir/a", CvdFileToJson ⟨FileSource.KERNEL_BUILD, "3", "k", "dir/a"⟩)] }
        FileSource.LOCAL_FILE "2" "u" ["dir/a"] "dir" false).1 =
        Except.error
          { file := ⟨FileSource.LOCAL_FILE, "2", "u", "a"⟩,
            existing := some ⟨FileSource.KERNEL_BUILD, "3", "k", "dir/a"⟩, path := "dir/a" } := by
  decide

/-! ## AddFilesToConfig: the manifest after a failure -/

theorem AddFilesToConfig_append_ok (c : FetcherConfig) (purpose : FileSource)
    (build_id build_target pre : String) (l1 l2 : List String) (override_entry : Bool)
    (hok : (AddFilesToConfig c purpose build_id build_target l1 pre override_entry).1 =
      Except.ok ()) :
    AddFilesToConfig c purpose build_id build_target (l1 ++ l2) pre override_entry =
      AddFilesToConfig
        (AddFilesToConfig c purpose build_id build_target l1 pre override_entry).2
        purpose build_id build_target l2 pre override_entry := by
  induction l1 generalizing c with
  | nil => rw [AddFilesToConfig_nil]; rfl
  | cons p rest ih =>
    have ha := AddFilesToConfig_accepted_of_ok c purpose build_id build_target pre
      override_entry p rest hok
    rw [List.cons_append,
      AddFilesToConfig_cons_accepted c purpose build_id build_target pre override_entry p _ ha]
    rw [AddFilesToConfig_cons_accepted c purpose build_id build_target pre override_entry p
      rest ha] at hok ⊢
    exact ih _ hok

theorem mem_trackedPaths_AddFilesToConfig_ok (c : FetcherConfig) (purpose : FileSource)
    (build_id build_target pre : String) (paths : List String) (override_entry : Bool)
    (hok : (AddFilesToConfig c purpose build_id build_target paths pre override_entry).1 =
      Except.ok ())
    (k : String) :
    k ∈ trackedPaths
        (AddFilesToConfig c purpose build_id build_target paths pre override_entry).2 ↔
      k ∈ trackedPaths c ∨ ∃ q ∈ paths, k = localPath q pre := by
  induction paths generalizing c with
  | nil => rw [AddFilesToConfig_nil]; simp
  | cons p rest ih =>
    have ha := AddFilesToConfig_accepted_of_ok c purpose build_id build_target pre
      override_entry p rest hok
    rw [AddFilesToConfig_cons_accepted c purpose build_id build_target pre override_entry p
      rest ha] at hok ⊢
    rw [ih _ hok, mem_trackedPaths_add_cvd_file]
    simp only [List.mem_cons, exists_eq_or_imp]
    constructor
    · rintro ((h | ⟨h, _⟩) | h)
      · exact Or.inl h
      · exact Or.inr (Or.inl h)
      · exact Or.inr (Or.inr h)
    · rintro (h | h | h)
      · exact Or.inl (Or.inl h)
      · exact Or.inl (Or.inr ⟨h, ha⟩)
      · exact Or.inr h

theorem AddFilesToConfig_keeps_tracked (c : FetcherConfig) (purpose : FileSource)
    (build_id build_target pre : String) (paths : List String)
    (hok : (AddFilesToConfig c purpose build_id build_target paths pre false).1 =
      Except.ok ())
    (k : String) (hk : k ∈ trackedPaths c) :
    (get_cvd_files
        (AddFilesToConfig c purpose build_id build_target paths pre false).2).lookup k =
      (get_cvd_files c).lookup k := by
  induction paths generalizing c with
  | nil => rw [AddFilesToConfig_nil]
  | cons p rest ih =>
    have ha := AddFilesToConfig_accepted_of_ok c purpose build_id build_target pre
      false p rest hok
    have hnt : localPath p pre ∉ trackedPaths c := by
      rcases ha with ha | ha
      · cases ha
      · exact ha
    rw [AddFilesToConfig_cons_accepted c purpose build_id build_target pre false p
      rest ha] at hok ⊢
    rw [ih _ hok ((mem_trackedPaths_add_cvd_file _ _ _ _).2 (Or.inl hk))]
    apply lookup_get_cvd_files_add_ne
    rintro rfl
    exact hnt hk

/-- C10, as the code has it: when `AddFilesToConfig` with `override_entry` false meets its
first duplicate at the path `p`, after the paths `earlier` and before the paths
`later`, it returns an error and leaves the manifest reached by adding `earlier`.
That manifest holds the entry of every earlier path, the entries that were there
before the call unchanged, and tracks exactly the keys tracked before the call and
the stripped keys of the earlier paths; a later path has an entry only when its
stripped key is one of those. -/
theorem AddFilesToConfig_stops_at_first_duplicate (c : FetcherConfig) (purpose : FileSource)
    (build_id build_target pre : String) (earlier later : List String) (p : String)
    (hu : UniqueKeys c)
    (hfirst : (AddFilesToConfig c purpose build_id build_target earlier pre false).1 =
      Except.ok ())
    (hdup : localPath p pre ∈ trackedPaths c ∨
      ∃ q ∈ earlier, localPath q pre = localPath p pre) :
    (∃ e, (AddFilesToConfig c purpose build_id build_target (earlier ++ p :: later) pre
        false).1 = Except.error e) ∧
      (AddFilesToConfig c purpose build_id build_target (earlier ++ p :: later) pre false).2 =
        (AddFilesToConfig c purpose build_id build_target earlier pre false).2 ∧
      (∀ q ∈ earlier,
        (get_cvd_files (AddFilesToConfig c purpose build_id build_target
          (earlier ++ p :: later) pre false).2).lookup (localPath q pre) =
          some ⟨purpose, build_id, build_target, localPath q pre⟩) ∧
      (∀ k ∈ trackedPaths c,
        (get_cvd_files (AddFilesToConfig c purpose build_id build_target
          (earlier ++ p :: later) pre false).2).lookup k = (get_cvd_files c).lookup k) ∧
      (∀ k, k ∈ trackedPaths (AddFilesToConfig c purpose build_id build_target
          (earlier ++ p :: later) pre false).2 ↔
        k ∈ trackedPaths c ∨ ∃ q ∈ earlier, k = localPath q pre) := by
  have hmem := mem_trackedPaths_AddFilesToConfig_ok c purpose build_id build_target pre
    earlier false hfirst
  have hp : localPath p pre ∈ trackedPaths
      (AddFilesToConfig c purpose build_id build_target earlier pre false).2 := by
    rw [hmem]
    rcases hdup with h | ⟨q, hq, hqp⟩
    · exact Or.inl h
    · exact Or.inr ⟨q, hq, hqp.symm⟩
  have hrun : AddFilesToConfig c purpose build_id build_target (earlier ++ p :: later) pre
      false =
      (Except.error
        { file := ⟨purpose, build_id, build_target, localPath p pre⟩,
          existing := (get_cvd_files
            (AddFilesToConfig c purpose build_id build_target earlier pre false).2).lookup p,
          path := p },
        (AddFilesToConfig c purpose build_id build_target earlier pre false).2) := by
    rw [AddFilesToConfig_append_ok c purpose build_id build_target pre earlier _ false hfirst,
      AddFilesToConfig_cons_rejected _ purpose build_id build_target pre p later hp]
  rw [hrun]
  refine ⟨⟨_, rfl⟩, rfl, fun q hq => ?_, fun k hk => ?_, hmem⟩
  · exact AddFilesToConfig_records c purpose build_id build_target pre earlier false hu
      hfirst q hq
  · exact AddFilesToConfig_keeps_tracked c purpose build_id build_target pre earlier hfirst
      k hk

theorem AddFilesToConfig_stops_at_first_duplicate_witness :
    UniqueKeys { cvd_files := some [("kernel", [("source", "kernel_build")])] } ∧
      (AddFilesToConfig { cvd_files := some [("kernel", [("source", "kernel_build")])] }
        FileSource.DEFAULT_BUILD "5" "tgt" (["out/boot.img"] ++ "out/kernel" :: ["out/x"])
        "out" false).2 =
      (AddFilesToConfig { cvd_files := some [("kernel", [("source", "kernel_build")])] }
        FileSource.DEFAULT_BUILD "5" "tgt" ["out/boot.img"] "out" false).2 :=
  ⟨by decide,
    (AddFilesToConfig_stops_at_first_duplicate
      { cvd_files := some [("kernel", [("source", "kernel_build")])] }
      FileSource.DEFAULT_BUILD "5" "tgt" "out" ["out/boot.img"] ["out/x"] "out/kernel"
      (by decide) (by decide) (by decide)).2.1⟩

/-- C10, as stated, fails: with `kernel` tracked, the call on `out/boot.img`,
`out/kernel`, `out//boot.img` under the prefix `out` adds the first path and returns
an error at the second, the first duplicate; the third, a later path, has an entry in
the manifest afterwards, with the purpose, build id and build target of the call:
its stripped key `boot.img` is the stripped key of the first path. -/
theorem AddFilesToConfig_later_path_may_be_tracked :
    (AddFilesToConfig { cvd_files := some [("kernel", [("source", "kernel_build")])] }
        FileSource.DEFAULT_BUILD "5" "tgt" ["out/boot.img"] "out" false).1 = Except.ok () ∧
      (AddFilesToConfig { cvd_files := some [("kernel", [("source", "kernel_build")])] }
        FileSource.DEFAULT_BUILD "5" "tgt" ["out/boot.img", "out/kernel", "out//boot.img"]
        "out" false).1 =
        Except.error
          { file := ⟨FileSource.DEFAULT_BUILD, "5", "tgt", "kernel"⟩, existing := none,
            path := "out/kernel" } ∧
      localPath "out//boot.img" "out" ∈ trackedPaths
        (AddFilesToConfig { cvd_files := some [("kernel", [("source", "kernel_build")])] }
          FileSource.DEFAULT_BUILD "5" "tgt" ["out/boot.img", "out/kernel", "out//boot.img"]
          "out" false).2 ∧
      (get_cvd_files
        (AddFilesToConfig { cvd_files := some [("kernel", [("source", "kernel_build")])] }
          FileSource.DEFAULT_BUILD "5" "tgt" ["out/boot.img", "out/kernel", "out//boot.img"]
          "out" false).2).lookup (localPath "out//boot.img" "out") =
        some ⟨FileSource.DEFAULT_BUILD, "5", "tgt", "boot.img"⟩ := by
  decide

/-! ## The source codec -/

theorem tolower_eq_toLower (c : Char) : tolower c = c.toLower := by
  rfl

theorem tolower_idempotent (c : Char) : tolower (tolower c) = tolower c := by
  by_cases h : 65 ≤ c.toNat ∧ c.toNat ≤ 90
  · have hc : c = Char.ofNat c.toNat := (Char.ofNat_toNat c).symm
    obtain ⟨h1, h2⟩ := h
    generalize c.toNat = n at hc h1 h2
    subst hc
    interval_cases n <;> rfl
  · simp only [tolower, h, if_false]

theorem map_tolower_asciiLowercase (s : String) :
    (asciiLowercase s).data.map tolower = s.data.map tolower := by
  simp only [asciiLowercase, List.map_map]
  apply List.map_congr_left
  intro c _
  simp only [Function.comp_apply, ← tolower_eq_toLower, tolower_idempotent]

theorem asciiLowercase_eq (s : String) : asciiLowercase s = ⟨s.data.map tolower⟩ := by
  simp only [asciiLowercase]
  congr 1

/-- C12: for each of the eleven FileSource values, `SourceStringToEnum` returns the
value that `SourceEnumToString` was given, `UNKNOWN_PURPOSE` going through the
string `unknown`; `SourceEnumToString` is injective. -/
theorem source_codec_round_trip :
    (∀ s : FileSource, SourceStringToEnum (SourceEnumToString s) = s) ∧
      SourceEnumToString FileSource.UNKNOWN_PURPOSE = "unknown" ∧
      SourceStringToEnum "unknown" = FileSource.UNKNOWN_PURPOSE ∧
      Function.Injective SourceEnumToString := by
  have hrt : ∀ s : FileSource, SourceStringToEnum (SourceEnumToString s) = s := by
    intro s
    cases s <;> rfl
  refine ⟨hrt, rfl, rfl, ?_⟩
  intro a b hab
  rw [← hrt a, ← hrt b, hab]

/-- C13: `SourceStringToEnum` returns for every string what it returns for the
ASCII-lowercased string, and `UNKNOWN_PURPOSE` for every string whose lowercase form
is not one of the ten recognised names. -/
theorem SourceStringToEnum_ignores_case (s : String) :
    SourceStringToEnum s = SourceStringToEnum (asciiLowercase s) ∧
      (asciiLowercase s ∉ recognisedSourceNames →
        SourceStringToEnum s = FileSource.UNKNOWN_PURPOSE) ∧
      SourceStringToEnum "Kernel_BUILD" = FileSource.KERNEL_BUILD := by
  refine ⟨?_, ?_, rfl⟩
  · simp only [SourceStringToEnum, map_tolower_asciiLowercase]
  · intro h
    rw [asciiLowercase_eq] at h
    simp only [recognisedSourceNames, List.mem_cons, List.mem_singleton, List.not_mem_nil,
      or_false, not_or] at h
    obtain ⟨h1, h2, h3, h4, h5, h6, h7, h8, h9, h10⟩ := h
    simp only [SourceStringToEnum, h1, h2, h3, h4, h5, h6, h7, h8, h9, h10, if_false]

/-! ## Paths outside the directory prefix -/

theorem localPath_of_not_prefixed (p pre : String) (h : ¬ pre.data <+: p.data) :
    localPath p pre = ⟨p.data.dropWhile (fun ch => ch == '/')⟩ := by
  have hs : StartsWith p pre = false := by
    rw [← Bool.not_eq_true, StartsWith, List.isPrefixOf_iff_prefix]
    exact h
  simp [localPath, ConsumePrefix, hs, consumeSlashes_eq_dropWhile]

/-- C11: a path `p` that does not start with the directory prefix is not rejected for
that.  Its key is `p` without its leading `/` characters; when that key is not
tracked, or `override_entry` is true, the call records `p` under it and goes on
with the paths after `p`; the call on `p` alone fails only when `override_entry`
is false and that key is tracked; and after a call that succeeds the key is tracked
with the purpose, build id and build target of the call. -/
theorem AddFilesToConfig_keeps_unprefixed_path (c : FetcherConfig) (purpose : FileSource)
    (build_id build_target pre : String) (override_entry : Bool) (p : String)
    (hnp : ¬ pre.data <+: p.data) :
    localPath p pre = ⟨p.data.dropWhile (fun ch => ch == '/')⟩ ∧
      (∀ rest : List String,
        (override_entry = true ∨
            (⟨p.data.dropWhile (fun ch => ch == '/')⟩ : String) ∉ trackedPaths c) →
          AddFilesToConfig c purpose build_id build_target (p :: rest) pre override_entry =
            AddFilesToConfig
              (add_cvd_file c
                ⟨purpose, build_id, build_target, ⟨p.data.dropWhile (fun ch => ch == '/')⟩⟩
                override_entry).2
              purpose build_id build_target rest pre override_entry) ∧
      ((∃ e, (AddFilesToConfig c purpose build_id build_target [p] pre override_entry).1 =
          Except.error e) ↔
        (override_entry = false ∧
          (⟨p.data.dropWhile (fun ch => ch == '/')⟩ : String) ∈ trackedPaths c)) ∧
      (∀ paths : List String, p ∈ paths → UniqueKeys c →
        (AddFilesToConfig c purpose build_id build_target paths pre override_entry).1 =
          Except.ok () →
        (get_cvd_files
            (AddFilesToConfig c purpose build_id build_target paths pre
              override_entry).2).lookup ⟨p.data.dropWhile (fun ch => ch == '/')⟩ =
          some ⟨purpose, build_id, build_target,
            ⟨p.data.dropWhile (fun ch => ch == '/')⟩⟩) := by
  have hkey := localPath_of_not_prefixed p pre hnp
  refine ⟨hkey, fun rest ha => ?_, ?_, fun paths hp hu hok => ?_⟩
  · rw [← hkey] at ha ⊢
    exact AddFilesToConfig_cons_accepted c purpose build_id build_target pre override_entry p
      rest ha
  · rw [← hkey]
    by_cases ha : override_entry = true ∨ localPath p pre ∉ trackedPaths c
    · rw [AddFilesToConfig_cons_accepted c purpose build_id build_target pre override_entry p
        [] ha, AddFilesToConfig_nil]
      constructor
      · rintro ⟨e, he⟩; cases he
      · rintro ⟨ho, ht⟩
        rcases ha with ha | ha
        · rw [ho] at ha; cases ha
        · exact absurd ht ha
    · simp only [not_or, not_not, Bool.not_eq_true] at ha
      rw [ha.1, AddFilesToConfig_cons_rejected c purpose build_id build_target pre p [] ha.2]
      exact ⟨fun _ => ⟨rfl, ha.2⟩, fun _ => ⟨_, rfl⟩⟩
  · rw [← hkey]
    exact AddFilesToConfig_records c purpose build_id build_target pre paths override_entry
      hu hok p hp

theorem AddFilesToConfig_keeps_unprefixed_path_witness :
    ¬ "out".data <+: "/tmp/boot.img".data ∧
      localPath "/tmp/boot.img" "out" = "tmp/boot.img" ∧
      (AddFilesToConfig FetcherConfig.empty FileSource.LOCAL_FILE "" "" ["/tmp/boot.img"] "out"
        false).1 = Except.ok () :=
  ⟨by decide,
    (AddFilesToConfig_keeps_unprefixed_path FetcherConfig.empty FileSource.LOCAL_FILE "" ""
      "out" false "/tmp/boot.img" (by decide)).1.trans (by decide),
    by decide⟩

/-! ## Entries with missing members -/

/-- C14: on a manifest whose path keys are unique, `get_cvd_files()` has an entry for
every tracked key `k`, whatever members its JSON entry lacks: the entry has
`file_path = k`, the source `UNKNOWN_PURPOSE` when `source` is missing and the
empty string for a missing `build_id` or `build_target`; members that are present
are read.  Without a `cvd_files` member `get_cvd_files()` is the empty map. -/
theorem get_cvd_files_tolerates_missing_members (c : FetcherConfig)
    (files : OrderedMap JsonFile) (k : String) (json : JsonFile)
    (hc : c.cvd_files = some files) (hu : UniqueKeys c) (hk : files.lookup k = some json) :
    (∃ v, (get_cvd_files c).lookup k = some v ∧ v.file_path = k ∧
        ("source" ∉ getMemberNames json → v.source = FileSource.UNKNOWN_PURPOSE) ∧
        ("build_id" ∉ getMemberNames json → v.build_id = "") ∧
        ("build_target" ∉ getMemberNames json → v.build_target = "") ∧
        (∀ text, json.lookup "source" = some text → v.source = SourceStringToEnum text) ∧
        (∀ text, json.lookup "build_id" = some text → v.build_id = text) ∧
        (∀ text, json.lookup "build_target" = some text → v.build_target = text)) ∧
      get_cvd_files { cvd_files := none } = [] := by
  refine ⟨⟨JsonToCvdFile k json, ?_, rfl, ?_, ?_, ?_, ?_, ?_, ?_⟩, rfl⟩
  · rw [lookup_get_cvd_files_of_unique c k hu, hc]
    simp only [Option.getD_some, hk, Option.map_some']
  · intro h
    have hm : isMember json kCvdFileSource = false := by
      rw [← Bool.not_eq_true, isMember_iff_mem]; exact h
    simp only [JsonToCvdFile, hm, Bool.false_eq_true, if_false]
  · intro h
    have hm : isMember json kCvdFileBuildId = false := by
      rw [← Bool.not_eq_true, isMember_iff_mem]; exact h
    simp only [JsonToCvdFile, hm, Bool.false_eq_true, if_false]
  · intro h
    have hm : isMember json kCvdFileBuildTarget = false := by
      rw [← Bool.not_eq_true, isMember_iff_mem]; exact h
    simp only [JsonToCvdFile, hm, Bool.false_eq_true, if_false]
  · intro text h
    have h' : json.lookup kCvdFileSource = some text := h
    simp [JsonToCvdFile, isMember, asStringAt, h']
  · intro text h
    have h' : json.lookup kCvdFileBuildId = some text := h
    simp [JsonToCvdFile, isMember, asStringAt, h']
  · intro text h
    have h' : json.lookup kCvdFileBuildTarget = some text := h
    simp [JsonToCvdFile, isMember, asStringAt, h']

theorem get_cvd_files_tolerates_missing_members_witness :
    UniqueKeys { cvd_files := some [("a", [("build_id", "7")]), ("b", [])] } ∧
      (get_cvd_files { cvd_files := some [("a", [("build_id", "7")]), ("b", [])] }).lookup "a" =
        some ⟨FileSource.UNKNOWN_PURPOSE, "7", "", "a"⟩ ∧
      ∃ v, (get_cvd_files
          { cvd_files := some [("a", [("build_id", "7")]), ("b", [])] }).lookup "a" = some v ∧
        v.file_path = "a" :=
  ⟨by decide, by decide,
    (get_cvd_files_tolerates_missing_members
      { cvd_files := some [("a", [("build_id", "7")]), ("b", [])] }
      [("a", [("build_id", "7")]), ("b", [])] "a" [("build_id", "7")] rfl (by decide)
      (by decide)).1.imp fun _ h => ⟨h.1, h.2.1⟩⟩

end cuttlefish
